import Mathlib

/-!
Verification of the Amalgamation repository (C forward-declaration amalgamation
tool).  The development shallowly embeds the core of the program:

* `src/amalgamation/graph.py` — the dependency graph and its recursive
  depth-first topological sort.  Python `set`/`dict` index their elements
  through `__hash__`/`__eq__`; for `Symbol` and `_Type` objects both are
  derived from the USR string, so the graph bookkeeping is modelled at the
  level of node keys (a type `α` with decidable equality).  CPython's set
  iteration order is unspecified, so the linearizer is modelled with the
  outer iteration order as an explicit parameter (`topological_sortWith`),
  and the canonical `topological_sort` uses insertion order.
  The Python recursion has no explicit bound; the embedding uses a fuel
  parameter that models the recursion depth, and we prove that a fuel equal
  to the number of graph nodes never runs out (each node is marked visited
  on entry, so nesting depth is bounded by the node count).
* `src/amalgamation/declarations.py` — type classification (`_Type.is_basic`)
  and rendering (`get_declaration_text` / `get_location_text`).
* `src/amalgamation/amalgamation.py` — the identity registry (`usr` dict),
  symbol admission (`_symbol_visitor`, `_add_variable`, `_add_function`), the
  stubbed transitive type resolution (`_resolve_type_dependencies`) and the
  output composition (`get_content`).
-/

namespace Amalg

/-- Adjacency lookup in a Python `dict` (keyed by node equality); an absent
key yields the `defaultdict(list)` default `[]`. -/
def adjLookup {α : Type} [DecidableEq α] : List (α × List α) → α → List α
  | [], _ => []
  | (k, vs) :: rest, u => if k = u then vs else adjLookup rest u

/-- `self._graph[u].append(v)`: append `v` to the adjacency list of `u`,
creating the entry when absent (insertion-ordered dict). -/
def adjAppend {α : Type} [DecidableEq α] : List (α × List α) → α → α → List (α × List α)
  | [], u, v => [(u, [v])]
  | (k, vs) :: rest, u, v =>
      if k = u then (k, vs ++ [v]) :: rest else (k, vs) :: adjAppend rest u v

/-- Insertion into a Python `set`, modelled as an insertion-ordered
duplicate-free list. -/
def insertNode {α : Type} [DecidableEq α] (ns : List α) (x : α) : List α :=
  if x ∈ ns then ns else ns ++ [x]

/-- The `Graph` class of `src/amalgamation/graph.py`: an adjacency dict
(`_graph`) plus a node set (`_nodes`). -/
structure Graph (α : Type) where
  adj : List (α × List α)
  nodes : List α

/-- `Graph.__init__`: empty adjacency dict and empty node set. -/
def Graph.empty {α : Type} : Graph α := ⟨[], []⟩

/-- `Graph.add_edge(u, v)` (key level): `self._nodes.update({u, v})` then
`self._graph[u].append(v)`.  The Python `assert u is not v` compares object
identity; at the call sites of this program `u` is `None` or a freshly built
`_Type` and `v` a freshly built `Variable`/`Function`, so the assertion always
passes there.  The assertion itself is modelled faithfully (object level) by
`PyGraph.add_edge` below. -/
def Graph.add_edge {α : Type} [DecidableEq α] (g : Graph α) (u v : α) : Graph α :=
  { adj := adjAppend g.adj u v
    nodes := insertNode (insertNode g.nodes u) v }

/-- A graph built by a sequence of `add_edge` calls. -/
def Graph.ofEdges {α : Type} [DecidableEq α] (es : List (α × α)) : Graph α :=
  es.foldl (fun g e => g.add_edge e.1 e.2) Graph.empty

/-- `self._graph[u]` — the adjacency list of `u`. -/
def Graph.adjOf {α : Type} [DecidableEq α] (g : Graph α) (u : α) : List α :=
  adjLookup g.adj u

/-- `nodes_count` property. -/
def Graph.nodes_count {α : Type} (g : Graph α) : Nat := g.nodes.length

/-- The edge relation of the graph: `v` occurs in `u`'s adjacency list. -/
def Graph.edge {α : Type} [DecidableEq α] (g : Graph α) (u v : α) : Prop :=
  v ∈ g.adjOf u

instance {α : Type} [DecidableEq α] (g : Graph α) (u v : α) :
    Decidable (g.edge u v) :=
  decidable_of_iff (v ∈ g.adjOf u) Iff.rfl

/-- The loop `for i in ...: if not visited[i]: self._topological_sort_util(i, ...)`
shared by `_topological_sort_util` (over the adjacency list) and by
`topological_sort` (over the iteration order of `visited.keys()`); `f` is the
recursive call into `_topological_sort_util`, threading the visited set and
the result stack. -/
def visitListF {α : Type} [DecidableEq α]
    (f : α → List α → List α → Option (List α × List α)) :
    List α → List α → List α → Option (List α × List α)
  | [], visited, stack => some (visited, stack)
  | i :: rest, visited, stack =>
      if i ∈ visited then visitListF f rest visited stack
      else
        match f i visited stack with
        | none => none
        | some (v, s) => visitListF f rest v s

/-- `Graph._topological_sort_util(node, visited, stack)`: mark `node`
visited, recur into its unvisited adjacent vertices, then prepend `node` to
`stack`.  `visited` is the set of keys mapped to `True`; `fuel` models the
recursion depth available (the Python recursion is unbounded; theorem
`sortUtil_enough_fuel` below shows a depth equal to the number of graph nodes
always suffices, i.e. the Python code never recurses deeper than that). -/
def sortUtil {α : Type} [DecidableEq α] (g : Graph α) :
    Nat → α → List α → List α → Option (List α × List α)
  | 0, _, _, _ => none
  | fuel + 1, node, visited, stack =>
      match visitListF (fun i v s => sortUtil g fuel i v s)
          (g.adjOf node) (node :: visited) stack with
      | none => none
      | some (v, s) => some (v, node :: s)

/-- The body of `_topological_sort_util` recursing with depth budget `fuel`. -/
def visitList {α : Type} [DecidableEq α] (g : Graph α) (fuel : Nat) :
    List α → List α → List α → Option (List α × List α) :=
  visitListF (fun i v s => sortUtil g fuel i v s)

/-- `Graph.topological_sort` with the iteration order of `visited.keys()`
made explicit (CPython set iteration order is deterministic but
unspecified); `none` would mean the modelled recursion-depth budget of
`nodes_count` was exceeded. -/
def Graph.topological_sortWith {α : Type} [DecidableEq α] (g : Graph α)
    (order : List α) : Option (List α) :=
  match visitList g g.nodes.length order [] [] with
  | none => none
  | some (_, stack) => some stack

/-- `Graph.topological_sort`, iterating the node set in insertion order. -/
def Graph.topological_sort {α : Type} [DecidableEq α] (g : Graph α) :
    Option (List α) :=
  g.topological_sortWith g.nodes

/-- Reachability along zero or more graph edges. -/
def Graph.Reaches {α : Type} [DecidableEq α] (g : Graph α) : α → α → Prop :=
  Relation.ReflTransGen g.edge

/-- Acyclicity: no edge closes a path back to its source. -/
def Graph.Acyclic {α : Type} [DecidableEq α] (g : Graph α) : Prop :=
  ∀ u v, g.edge u v → g.Reaches v u → False

/-- `l` is a valid finish-order stack: every node's graph successors occur
strictly later in the list. -/
def GoodStack {α : Type} [DecidableEq α] (g : Graph α) : List α → Prop
  | [] => True
  | x :: rest => (∀ y ∈ g.adjOf x, y ∈ rest) ∧ GoodStack g rest

/-- Number of graph nodes not yet visited — the measure bounding the
recursion depth of `_topological_sort_util`. -/
def unvisCount {α : Type} [DecidableEq α] (g : Graph α) (visited : List α) : Nat :=
  (g.nodes.filter (fun x => decide (x ∉ visited))).length

/-- Postcondition describing how one recursive call of
`_topological_sort_util` extends `visited` and `stack`: the same set of new
nodes `Δv` (each previously unvisited, each being the entry node or the
target of some edge) is prepended to both, in possibly different orders. -/
def SortShape {α : Type} [DecidableEq α] (g : Graph α)
    (f : α → List α → List α → Option (List α × List α)) : Prop :=
  ∀ node visited stack v s, node ∉ visited → f node visited stack = some (v, s) →
    ∃ Δv Δs, v = Δv ++ visited ∧ s = Δs ++ stack ∧ Δs.Perm Δv ∧ Δv.Nodup ∧
      (∀ x ∈ Δv, x ∉ visited) ∧ node ∈ Δv ∧
      (∀ x ∈ Δv, x = node ∨ ∃ u, g.edge u x)

/-- Invariant-preservation postcondition for one recursive call of
`_topological_sort_util`, with the ghost list `p` of in-progress ancestors
(the grey nodes of the implicit DFS three-colouring): if every ancestor
reaches the entry node and every visited node is finished (on the stack) or
in progress, the call keeps the stack closed under successors, finishes
everything it visits, and puts the entry node on top of the stack. -/
def SortGood {α : Type} [DecidableEq α] (g : Graph α)
    (f : α → List α → List α → Option (List α × List α)) : Prop :=
  ∀ (node : α) (visited stack p v s : List α),
    node ∉ visited →
    (∀ x ∈ p, g.Reaches x node) →
    (∀ x ∈ visited, x ∈ stack ∨ x ∈ p) →
    GoodStack g stack →
    f node visited stack = some (v, s) →
    GoodStack g s ∧ (∀ x ∈ v, x ∈ s ∨ x ∈ p) ∧ (∃ t, s = node :: t) ∧
      (∃ Δ, s = Δ ++ stack)

/-- A Python object reference: `objId` models CPython object identity (what
`is` compares), `usr` the USR string from which `Symbol.__hash__`/`__eq__`
and `_Type.__hash__`/`__eq__` are derived. -/
structure PyObj where
  objId : Nat
  usr : String
deriving DecidableEq

/-- Python `u is v` — object identity. -/
def pyIs (a b : PyObj) : Bool := a.objId == b.objId

/-- Python `u == v` for `Symbol`/`_Type` objects — equality of the USR key
(this is also what `set`/`dict` membership uses, via `__hash__`). -/
def pyKeyEq (a b : PyObj) : Bool := a.usr == b.usr

/-- `set` insertion at object level: dedup by `__eq__` (USR), keep the first
inserted object. -/
def pyInsertNode (ns : List PyObj) (x : PyObj) : List PyObj :=
  if ns.any (fun y => pyKeyEq y x) then ns else ns ++ [x]

/-- `dict[u].append(v)` at object level, keyed by `__eq__` (USR). -/
def pyAdjAppend : List (PyObj × List PyObj) → PyObj → PyObj → List (PyObj × List PyObj)
  | [], u, v => [(u, [v])]
  | (k, vs) :: rest, u, v =>
      if pyKeyEq k u then (k, vs ++ [v]) :: rest else (k, vs) :: pyAdjAppend rest u v

/-- The `Graph` class at object level (used only to study `add_edge`'s
assertion, which compares object identity, not key equality). -/
structure PyGraph where
  adj : List (PyObj × List PyObj)
  nodes : List PyObj

/-- `Graph.add_edge` with its `assert u is not v` modelled faithfully: the
assertion raises exactly when `u` and `v` are the same object. -/
def PyGraph.add_edge (g : PyGraph) (u v : PyObj) : Except String PyGraph :=
  if pyIs u v then Except.error "AssertionError: cannot add edge to self"
  else Except.ok
    { adj := pyAdjAppend g.adj u v
      nodes := pyInsertNode (pyInsertNode g.nodes u) v }

/-- Numeric value of `clang.cindex.TypeKind.VOID` (external library constant). -/
def TypeKindVOID : Nat := 2

/-- Numeric value of `clang.cindex.TypeKind.NULLPTR`. -/
def TypeKindNULLPTR : Nat := 24

/-- Numeric value of `clang.cindex.TypeKind.POINTER`. -/
def TypeKindPOINTER : Nat := 101

/-- Numeric value of `clang.cindex.TypeKind.TYPEDEF`. -/
def TypeKindTYPEDEF : Nat := 107

/-- Numeric value of `clang.cindex.TypeKind.ELABORATED`. -/
def TypeKindELABORATED : Nat := 119

/-- The data of a `_Type` wrapper (src/amalgamation/declarations.py): the
numeric `TypeKind` value of the wrapped `clang` type and the USR of its
declaration cursor. -/
structure _Type where
  kindValue : Nat
  usr : String
deriving DecidableEq

/-- `_Type.is_basic`: `TypeKind.VOID.value <= kind <= TypeKind.NULLPTR.value`. -/
def _Type.is_basic (t : _Type) : Bool :=
  decide (TypeKindVOID ≤ t.kindValue ∧ t.kindValue ≤ TypeKindNULLPTR)

/-- A node of the amalgamation's dependency graph: the Python `None`
placeholder, a `_Type` node, or a `Variable`/`Function` symbol node.
`__eq__` on these classes compares the USR but also requires
`isinstance(other, type(self))`, so same-USR nodes of different classes are
distinct graph nodes. -/
inductive GNode where
  | nullNode : GNode
  | typeNode (usr : String) : GNode
  | varNode (usr : String) : GNode
  | funcNode (usr : String) : GNode
deriving DecidableEq

/-- A `VAR_DECL` cursor as consumed by `_add_variable`: its USR and the
`_Type` of `cursor.type`. -/
structure VarRecord where
  usr : String
  type : _Type
deriving DecidableEq

/-- A `FUNCTION_DECL` cursor as consumed by `_add_function`: its USR, the
`_Type` of `cursor.result_type` and the `_Type` of each argument. -/
structure FuncRecord where
  usr : String
  resultType : _Type
  args : List _Type
deriving DecidableEq

/-- Insert-or-overwrite into a Python `dict` keyed by a string
(insertion-ordered). -/
def dictInsert {A : Type} : List (String × A) → String → A → List (String × A)
  | [], k, v => [(k, v)]
  | (k1, v1) :: rest, k, v =>
      if k1 = k then (k, v) :: rest else (k1, v1) :: dictInsert rest k v

/-- `key in dict.keys()`. -/
def dictContains {A : Type} (d : List (String × A)) (k : String) : Bool :=
  d.any (fun p => p.1 == k)

/-- The `Amalgamation` object: the USR identity registry (`self.usr`) and the
dependency graph (`self.graph`). -/
structure Amalgamation where
  usr : List (String × GNode)
  graph : Graph GNode

/-- `Amalgamation.__init__`. -/
def Amalgamation.empty : Amalgamation := ⟨[], Graph.empty⟩

/-- `_resolve_typedef_declaration` — the body is `pass`. -/
def _resolve_typedef_declaration (a : Amalgamation) : Amalgamation := a

/-- `_resolve_elaborated_declaration` — the body is `pass`. -/
def _resolve_elaborated_declaration (a : Amalgamation) : Amalgamation := a

/-- `_resolve_pointer_declaration` — the body is `pass`. -/
def _resolve_pointer_declaration (a : Amalgamation) : Amalgamation := a

/-- `_resolve_type_dependencies(t)`: dispatch on the type kind to the three
resolver functions (whose bodies are all `pass`), else `pass`. -/
def _resolve_type_dependencies (a : Amalgamation) (t : _Type) : Amalgamation :=
  if t.kindValue = TypeKindTYPEDEF then _resolve_typedef_declaration a
  else if t.kindValue = TypeKindELABORATED then _resolve_elaborated_declaration a
  else if t.kindValue = TypeKindPOINTER then _resolve_pointer_declaration a
  else a

/-- `_register_symbol`: `self.usr[symbol.usr] = symbol`. -/
def _register_symbol (a : Amalgamation) (usr1 : String) (node : GNode) : Amalgamation :=
  { a with usr := dictInsert a.usr usr1 node }

/-- `_add_variable`: `type_ = None if variable.type.is_basic else variable.type`,
then `add_edge(type_, variable)`, `_resolve_type_dependencies(variable.type)`,
`_register_symbol(variable)`.  (The `assert u is not v` in `add_edge` always
passes here: `u` is `None` or a freshly constructed `_Type` object, `v` a
freshly constructed `Variable`, never the same object.) -/
def _add_variable (a : Amalgamation) (v : VarRecord) : Amalgamation :=
  let type_ : GNode := if v.type.is_basic then GNode.nullNode else GNode.typeNode v.type.usr
  let a1 : Amalgamation := { a with graph := a.graph.add_edge type_ (GNode.varNode v.usr) }
  let a2 := _resolve_type_dependencies a1 v.type
  _register_symbol a2 v.usr (GNode.varNode v.usr)

/-- `_add_function`: edge from the (possibly `None`) return type node to the
function, resolve, then for each argument an edge from the (possibly `None`)
argument type node to the function, resolve; finally register. -/
def _add_function (a : Amalgamation) (f : FuncRecord) : Amalgamation :=
  let type_ : GNode := if f.resultType.is_basic then GNode.nullNode
    else GNode.typeNode f.resultType.usr
  let a1 : Amalgamation := { a with graph := a.graph.add_edge type_ (GNode.funcNode f.usr) }
  let a2 := _resolve_type_dependencies a1 f.resultType
  let a3 := f.args.foldl (fun acc argType =>
      let t : GNode := if argType.is_basic then GNode.nullNode
        else GNode.typeNode argType.usr
      let acc1 : Amalgamation := { acc with graph := acc.graph.add_edge t (GNode.funcNode f.usr) }
      _resolve_type_dependencies acc1 argType) a2
  _register_symbol a3 f.usr (GNode.funcNode f.usr)

/-- A top-level cursor offered to `_symbol_visitor`: a `VAR_DECL` or a
`FUNCTION_DECL` (other kinds are filtered out by the caller). -/
inductive CursorRecord where
  | varDecl (v : VarRecord)
  | functionDecl (f : FuncRecord)
deriving DecidableEq

/-- `cursor.get_usr()`. -/
def CursorRecord.usr : CursorRecord → String
  | .varDecl v => v.usr
  | .functionDecl f => f.usr

/-- `_symbol_visitor`: `if usr in self.usr.keys(): return` (duplicate is
discarded after a debug log), else dispatch on the cursor kind. -/
def _symbol_visitor (a : Amalgamation) (c : CursorRecord) : Amalgamation :=
  if dictContains a.usr c.usr then a
  else
    match c with
    | .varDecl v => _add_variable a v
    | .functionDecl f => _add_function a f

/-- A cursor's source location; `file` is `None` for synthetic entities. -/
structure SourceLocation where
  file : Option String
  line : Nat
  column : Nat
deriving DecidableEq

/-- `_cursor_location_text`: empty string when `loc.file` is falsy, else
`f"{loc.file.name}:{loc.line}:{loc.column}"`. -/
def _cursor_location_text (loc : SourceLocation) : String :=
  match loc.file with
  | none => ""
  | some f => f ++ ":" ++ toString loc.line ++ ":" ++ toString loc.column

/-- A renderable graph node as consumed by `get_content`: its
`get_declaration_text()` result and its cursor location.  The `None` graph
node has no such data; `get_content` consumes `Option RenderDecl`, with
`none` standing for the Python `None` placeholder. -/
structure RenderDecl where
  declarationText : String
  location : SourceLocation
deriving DecidableEq

/-- `decl.get_location_text()`. -/
def get_location_text (d : RenderDecl) : String := _cursor_location_text d.location

/-- One composed output line:
`f"{decl.get_declaration_text()}  // {decl.get_location_text()}\n"`. -/
def renderLine (d : RenderDecl) : String :=
  d.declarationText ++ "  // " ++ get_location_text d ++ "\n"

/-- `Amalgamation.get_content`: fold over the sorted declarations, skipping
`None` (`if decl is None: continue`) and appending one line per declaration. -/
def get_content (decls : List (Option RenderDecl)) : String :=
  decls.foldl (fun content d =>
    match d with
    | none => content
    | some decl => content ++ renderLine decl) ""

/-! ### Basic graph lemmas -/

theorem adjLookup_adjAppend {α : Type} [DecidableEq α]
    (d : List (α × List α)) (u v w : α) :
    adjLookup (adjAppend d u v) w =
      if w = u then adjLookup d w ++ [v] else adjLookup d w := by
  induction d with
  | nil =>
      by_cases h : w = u
      · subst h; simp [adjAppend, adjLookup]
      · simp only [adjAppend, adjLookup, if_neg h]
        rw [if_neg (fun hw => h hw.symm)]
  | cons p rest ih =>
      obtain ⟨k, vs⟩ := p
      by_cases hk : k = u
      · subst hk
        by_cases hw : k = w
        · subst hw
          simp [adjAppend, adjLookup]
        · simp only [adjAppend, if_pos rfl, adjLookup, if_neg hw]
          rw [if_neg (fun h => hw h.symm)]
      · by_cases hw : k = w
        · subst hw
          simp only [adjAppend, if_neg hk, adjLookup, if_pos rfl]
          simp
        · simp only [adjAppend, if_neg hk, adjLookup, if_neg hw]
          exact ih

theorem Graph.adjOf_empty {α : Type} [DecidableEq α] (w : α) :
    (Graph.empty : Graph α).adjOf w = [] := rfl

theorem Graph.adjOf_add_edge {α : Type} [DecidableEq α] (g : Graph α) (u v w : α) :
    (g.add_edge u v).adjOf w = if w = u then g.adjOf w ++ [v] else g.adjOf w :=
  adjLookup_adjAppend g.adj u v w

theorem Graph.edge_add_edge {α : Type} [DecidableEq α] (g : Graph α) (u v a b : α) :
    (g.add_edge u v).edge a b ↔ g.edge a b ∨ (a = u ∧ b = v) := by
  unfold Graph.edge
  rw [Graph.adjOf_add_edge]
  by_cases h : a = u
  · subst h; simp
  · simp [h]

theorem mem_insertNode {α : Type} [DecidableEq α] (ns : List α) (x y : α) :
    y ∈ insertNode ns x ↔ y ∈ ns ∨ y = x := by
  unfold insertNode
  split
  · constructor
    · exact fun h => Or.inl h
    · rintro (h | rfl)
      · exact h
      · assumption
  · simp

theorem nodup_insertNode {α : Type} [DecidableEq α] (ns : List α) (x : α)
    (h : ns.Nodup) : (insertNode ns x).Nodup := by
  unfold insertNode
  split
  · exact h
  · rename_i hx
    simpa [List.nodup_append, h] using hx

theorem Graph.mem_nodes_add_edge {α : Type} [DecidableEq α] (g : Graph α)
    (u v y : α) : y ∈ (g.add_edge u v).nodes ↔ y ∈ g.nodes ∨ y = u ∨ y = v := by
  show y ∈ insertNode (insertNode g.nodes u) v ↔ _
  rw [mem_insertNode, mem_insertNode]
  tauto

theorem Graph.nodes_nodup_add_edge {α : Type} [DecidableEq α] (g : Graph α)
    (u v : α) (h : g.nodes.Nodup) : (g.add_edge u v).nodes.Nodup :=
  nodup_insertNode _ _ (nodup_insertNode _ _ h)

theorem edge_foldl_add_edge {α : Type} [DecidableEq α] (es : List (α × α))
    (g : Graph α) (a b : α) :
    (es.foldl (fun g1 e => g1.add_edge e.1 e.2) g).edge a b ↔
      g.edge a b ∨ (a, b) ∈ es := by
  induction es generalizing g with
  | nil => simp
  | cons e rest ih =>
      simp only [List.foldl_cons, List.mem_cons]
      rw [ih, Graph.edge_add_edge]
      constructor
      · rintro ((h | ⟨rfl, rfl⟩) | h)
        · exact Or.inl h
        · exact Or.inr (Or.inl rfl)
        · exact Or.inr (Or.inr h)
      · rintro (h | h | h)
        · exact Or.inl (Or.inl h)
        · exact Or.inl (Or.inr ⟨congrArg Prod.fst h, congrArg Prod.snd h⟩)
        · exact Or.inr h

theorem Graph.edge_ofEdges {α : Type} [DecidableEq α] (es : List (α × α))
    (a b : α) : (Graph.ofEdges es).edge a b ↔ (a, b) ∈ es := by
  unfold Graph.ofEdges
  rw [edge_foldl_add_edge]
  have : ¬ (Graph.empty : Graph α).edge a b := by
    unfold Graph.edge
    rw [Graph.adjOf_empty]
    simp
  tauto

theorem mem_nodes_foldl_add_edge {α : Type} [DecidableEq α] (es : List (α × α))
    (g : Graph α) (y : α) :
    y ∈ (es.foldl (fun g1 e => g1.add_edge e.1 e.2) g).nodes ↔
      y ∈ g.nodes ∨ ∃ p ∈ es, y = p.1 ∨ y = p.2 := by
  induction es generalizing g with
  | nil => simp
  | cons e rest ih =>
      simp only [List.foldl_cons, List.mem_cons]
      rw [ih, Graph.mem_nodes_add_edge]
      constructor
      · rintro ((h | h | h) | ⟨p, hp, h⟩)
        · exact Or.inl h
        · exact Or.inr ⟨e, Or.inl rfl, Or.inl h⟩
        · exact Or.inr ⟨e, Or.inl rfl, Or.inr h⟩
        · exact Or.inr ⟨p, Or.inr hp, h⟩
      · rintro (h | ⟨p, hp | hp, h⟩)
        · exact Or.inl (Or.inl h)
        · subst hp; exact Or.inl (Or.inr h)
        · exact Or.inr ⟨p, hp, h⟩

theorem Graph.mem_nodes_ofEdges {α : Type} [DecidableEq α] (es : List (α × α))
    (y : α) : y ∈ (Graph.ofEdges es).nodes ↔ ∃ p ∈ es, y = p.1 ∨ y = p.2 := by
  unfold Graph.ofEdges
  rw [mem_nodes_foldl_add_edge]
  simp [Graph.empty]

theorem nodes_nodup_foldl_add_edge {α : Type} [DecidableEq α] (es : List (α × α))
    (g : Graph α) (h : g.nodes.Nodup) :
    (es.foldl (fun g1 e => g1.add_edge e.1 e.2) g).nodes.Nodup := by
  induction es generalizing g with
  | nil => exact h
  | cons e rest ih => exact ih _ (Graph.nodes_nodup_add_edge _ _ _ h)

theorem Graph.nodes_nodup_ofEdges {α : Type} [DecidableEq α] (es : List (α × α)) :
    (Graph.ofEdges es).nodes.Nodup :=
  nodes_nodup_foldl_add_edge es Graph.empty List.nodup_nil

theorem Graph.edge_mem_nodes_ofEdges {α : Type} [DecidableEq α]
    (es : List (α × α)) (a b : α) (h : (Graph.ofEdges es).edge a b) :
    a ∈ (Graph.ofEdges es).nodes ∧ b ∈ (Graph.ofEdges es).nodes := by
  rw [Graph.edge_ofEdges] at h
  rw [Graph.mem_nodes_ofEdges, Graph.mem_nodes_ofEdges]
  exact ⟨⟨(a, b), h, Or.inl rfl⟩, ⟨(a, b), h, Or.inr rfl⟩⟩

/-! ### Shape of the DFS recursion -/

theorem visitListF_shape {α : Type} [DecidableEq α] (g : Graph α)
    (f : α → List α → List α → Option (List α × List α)) (hf : SortShape g f) :
    ∀ l visited stack v s, visitListF f l visited stack = some (v, s) →
      ∃ Δv Δs, v = Δv ++ visited ∧ s = Δs ++ stack ∧ Δs.Perm Δv ∧ Δv.Nodup ∧
        (∀ x ∈ Δv, x ∉ visited) ∧ (∀ i ∈ l, i ∈ v) ∧
        (∀ x ∈ Δv, x ∈ l ∨ ∃ u, g.edge u x) := by
  intro l
  induction l with
  | nil =>
      intro visited stack v s h
      have h1 : visited = v ∧ stack = s := by
        simpa [visitListF] using h
      obtain ⟨rfl, rfl⟩ := h1
      exact ⟨[], [], rfl, rfl, List.Perm.nil, List.nodup_nil, by simp, by simp, by simp⟩
  | cons i rest ih =>
      intro visited stack v s h
      by_cases hiv : i ∈ visited
      · rw [visitListF, if_pos hiv] at h
        obtain ⟨Δv, Δs, hv, hs, hperm, hnd, hfresh, hmem, horig⟩ :=
          ih visited stack v s h
        refine ⟨Δv, Δs, hv, hs, hperm, hnd, hfresh, ?_, ?_⟩
        · intro j hj
          rcases List.mem_cons.mp hj with rfl | hj1
          · rw [hv]; exact List.mem_append_right _ hiv
          · exact hmem j hj1
        · intro x hx
          rcases horig x hx with h1 | h1
          · exact Or.inl (List.mem_cons_of_mem _ h1)
          · exact Or.inr h1
      · rw [visitListF, if_neg hiv] at h
        cases hfi : f i visited stack with
        | none => rw [hfi] at h; cases h
        | some q =>
            obtain ⟨v1, s1⟩ := q
            rw [hfi] at h
            obtain ⟨Δ1, Δ1s, hv1, hs1, hperm1, hnd1, hfresh1, hi1, horig1⟩ :=
              hf i visited stack v1 s1 hiv hfi
            obtain ⟨Δ2, Δ2s, hv2, hs2, hperm2, hnd2, hfresh2, hmem2, horig2⟩ :=
              ih v1 s1 v s h
            have hdisj : ∀ x ∈ Δ2, x ∉ Δ1 := by
              intro x hx hx1
              exact hfresh2 x hx (by rw [hv1]; exact List.mem_append_left _ hx1)
            refine ⟨Δ2 ++ Δ1, Δ2s ++ Δ1s, ?_, ?_, hperm2.append hperm1, ?_, ?_, ?_, ?_⟩
            · rw [hv2, hv1, List.append_assoc]
            · rw [hs2, hs1, List.append_assoc]
            · exact List.nodup_append.mpr ⟨hnd2, hnd1, fun x hx => hdisj x hx⟩
            · intro x hx
              rcases List.mem_append.mp hx with hx1 | hx1
              · intro hxv
                exact hfresh2 x hx1 (by rw [hv1]; exact List.mem_append_right _ hxv)
              · exact hfresh1 x hx1
            · intro j hj
              rcases List.mem_cons.mp hj with rfl | hj1
              · rw [hv2]
                exact List.mem_append_right _ (by rw [hv1]; exact List.mem_append_left _ hi1)
              · exact hmem2 j hj1
            · intro x hx
              rcases List.mem_append.mp hx with hx1 | hx1
              · rcases horig2 x hx1 with h1 | h1
                · exact Or.inl (List.mem_cons_of_mem _ h1)
                · exact Or.inr h1
              · rcases horig1 x hx1 with rfl | h1
                · exact Or.inl (List.mem_cons_self _ _)
                · exact Or.inr h1

theorem sortUtil_shape {α : Type} [DecidableEq α] (g : Graph α) :
    ∀ fuel, SortShape g (fun i v s => sortUtil g fuel i v s) := by
  intro fuel
  induction fuel with
  | zero =>
      intro node visited stack v s _ h
      simp [sortUtil] at h
  | succ f ih =>
      intro node visited stack v s hnv h
      simp only [sortUtil] at h
      cases hvl : visitListF (fun i v1 s1 => sortUtil g f i v1 s1)
          (g.adjOf node) (node :: visited) stack with
      | none => rw [hvl] at h; simp at h
      | some q =>
          obtain ⟨v1, s1⟩ := q
          rw [hvl] at h
          simp only [Option.some.injEq, Prod.mk.injEq] at h
          obtain ⟨hv, hs⟩ := h
          subst hv
          subst hs
          obtain ⟨Δ, Δs, hv1, hs1, hperm, hnd, hfresh, hmem, horig⟩ :=
            visitListF_shape g _ ih (g.adjOf node) (node :: visited) stack v1 s1 hvl
          refine ⟨Δ ++ [node], node :: Δs, ?_, ?_, ?_, ?_, ?_, ?_, ?_⟩
          · rw [hv1, List.append_assoc]; rfl
          · rw [hs1]; rfl
          · exact ((hperm.cons node).trans (List.perm_append_singleton node Δ).symm)
          · refine List.nodup_append.mpr ⟨hnd, List.nodup_singleton node, ?_⟩
            intro x hx hx1
            rcases List.mem_singleton.mp hx1 with rfl
            exact hfresh x hx (List.mem_cons_self _ _)
          · intro x hx
            rcases List.mem_append.mp hx with hx1 | hx1
            · exact fun hxv => hfresh x hx1 (List.mem_cons_of_mem _ hxv)
            · rcases List.mem_singleton.mp hx1 with rfl
              exact hnv
          · exact List.mem_append_right _ (List.mem_singleton_self node)
          · intro x hx
            rcases List.mem_append.mp hx with hx1 | hx1
            · rcases horig x hx1 with h1 | h1
              · exact Or.inr ⟨node, h1⟩
              · exact Or.inr h1
            · rcases List.mem_singleton.mp hx1 with rfl
              exact Or.inl rfl

/-! ### The recursion-depth budget of one node per level always suffices -/

theorem filter_length_mono {α : Type} (l : List α) (p q : α → Bool)
    (h : ∀ x, p x = true → q x = true) :
    (l.filter p).length ≤ (l.filter q).length := by
  induction l with
  | nil => simp
  | cons a t ih =>
      cases hp : p a with
      | true =>
          rw [List.filter_cons_of_pos hp, List.filter_cons_of_pos (h a hp)]
          simpa using ih
      | false =>
          rw [List.filter_cons_of_neg (by simp [hp])]
          cases hq : q a with
          | true =>
              rw [List.filter_cons_of_pos hq]
              exact Nat.le_succ_of_le ih
          | false =>
              rw [List.filter_cons_of_neg (by simp [hq])]
              exact ih

theorem filter_length_lt {α : Type} (l : List α) (p q : α → Bool) (a : α)
    (ha : a ∈ l) (hq : q a = true) (hp : p a = false)
    (h : ∀ x, p x = true → q x = true) :
    (l.filter p).length < (l.filter q).length := by
  induction l with
  | nil => cases ha
  | cons b t ih =>
      rcases List.mem_cons.mp ha with rfl | hat
      · rw [List.filter_cons_of_neg (by simp [hp]), List.filter_cons_of_pos hq]
        exact Nat.lt_succ_of_le (filter_length_mono t p q h)
      · cases hpb : p b with
        | true =>
            rw [List.filter_cons_of_pos hpb, List.filter_cons_of_pos (h b hpb)]
            simpa using ih hat
        | false =>
            rw [List.filter_cons_of_neg (by simp [hpb])]
            cases hqb : q b with
            | true =>
                rw [List.filter_cons_of_pos hqb]
                exact Nat.lt_succ_of_lt (ih hat)
            | false =>
                rw [List.filter_cons_of_neg (by simp [hqb])]
                exact ih hat

theorem unvisCount_mono {α : Type} [DecidableEq α] (g : Graph α)
    (visited v : List α) (h : ∀ x ∈ visited, x ∈ v) :
    unvisCount g v ≤ unvisCount g visited := by
  apply filter_length_mono
  intro x hx
  simp only [decide_eq_true_eq] at hx ⊢
  exact fun hxv => hx (h x hxv)

theorem unvisCount_cons_lt {α : Type} [DecidableEq α] (g : Graph α)
    (node : α) (visited : List α) (hn : node ∈ g.nodes) (hnv : node ∉ visited) :
    unvisCount g (node :: visited) < unvisCount g visited := by
  apply filter_length_lt _ _ _ node hn (by simpa using hnv)
    (by simp)
  intro x hx
  simp only [decide_eq_true_eq, List.mem_cons] at hx ⊢
  exact fun hxv => hx (Or.inr hxv)

theorem unvisCount_le_length {α : Type} [DecidableEq α] (g : Graph α)
    (visited : List α) : unvisCount g visited ≤ g.nodes.length :=
  List.length_filter_le _ _

theorem visitListF_total {α : Type} [DecidableEq α] (g : Graph α) (fuel : Nat)
    (f : α → List α → List α → Option (List α × List α))
    (hshape : SortShape g f)
    (hf : ∀ (node : α) (visited stack : List α), node ∈ g.nodes → node ∉ visited →
        unvisCount g visited ≤ fuel → ∃ r, f node visited stack = some r) :
    ∀ (l visited stack : List α), (∀ i ∈ l, i ∈ g.nodes) →
      unvisCount g visited ≤ fuel →
      ∃ r, visitListF f l visited stack = some r := by
  intro l
  induction l with
  | nil => exact fun visited stack _ _ => ⟨(visited, stack), rfl⟩
  | cons i rest ih =>
      intro visited stack hl hcount
      by_cases hiv : i ∈ visited
      · rw [visitListF, if_pos hiv]
        exact ih visited stack (fun j hj => hl j (List.mem_cons_of_mem _ hj)) hcount
      · obtain ⟨⟨v1, s1⟩, h1⟩ :=
          hf i visited stack (hl i (List.mem_cons_self _ _)) hiv hcount
        obtain ⟨Δv, _, hv1, _⟩ := hshape i visited stack v1 s1 hiv h1
        have hsub : ∀ x ∈ visited, x ∈ v1 := by
          intro x hx; rw [hv1]; exact List.mem_append_right _ hx
        obtain ⟨r, hr⟩ := ih v1 s1 (fun j hj => hl j (List.mem_cons_of_mem _ hj))
          (le_trans (unvisCount_mono g visited v1 hsub) hcount)
        refine ⟨r, ?_⟩
        rw [visitListF, if_neg hiv, h1]
        exact hr

theorem sortUtil_total {α : Type} [DecidableEq α] (g : Graph α)
    (hwf : ∀ u x, g.edge u x → x ∈ g.nodes) :
    ∀ (fuel : Nat) (node : α) (visited stack : List α), node ∈ g.nodes →
      node ∉ visited → unvisCount g visited ≤ fuel →
      ∃ r, sortUtil g fuel node visited stack = some r := by
  intro fuel
  induction fuel with
  | zero =>
      intro node visited stack hn hnv hc
      exfalso
      have hmem : node ∈ g.nodes.filter (fun x => decide (x ∉ visited)) :=
        List.mem_filter.mpr ⟨hn, by simpa using hnv⟩
      have : 0 < unvisCount g visited := List.length_pos_of_mem hmem
      omega
  | succ f ih =>
      intro node visited stack hn hnv hc
      have hc1 : unvisCount g (node :: visited) ≤ f := by
        have := unvisCount_cons_lt g node visited hn hnv
        omega
      obtain ⟨⟨v1, s1⟩, hr⟩ := visitListF_total g f _ (sortUtil_shape g f)
        (fun n v s hn1 hnv1 hcnt => ih n v s hn1 hnv1 hcnt)
        (g.adjOf node) (node :: visited) stack
        (fun i hi => hwf node i hi) hc1
      refine ⟨(v1, node :: s1), ?_⟩
      simp only [sortUtil, hr]

theorem topological_sortWith_total {α : Type} [DecidableEq α] (g : Graph α)
    (hwf : ∀ u x, g.edge u x → x ∈ g.nodes)
    (order : List α) (horder : ∀ x ∈ order, x ∈ g.nodes) :
    ∃ l, g.topological_sortWith order = some l := by
  obtain ⟨⟨v, s⟩, h⟩ := visitListF_total g g.nodes.length _
    (sortUtil_shape g g.nodes.length)
    (fun n v s hn hnv hc => sortUtil_total g hwf g.nodes.length n v s hn hnv hc)
    order [] [] horder (unvisCount_le_length g [])
  refine ⟨s, ?_⟩
  unfold Graph.topological_sortWith visitList
  rw [h]

/-! ### The stack stays closed under successors (acyclic case) -/

theorem visitListF_good {α : Type} [DecidableEq α] (g : Graph α)
    (f : α → List α → List α → Option (List α × List α)) (hf : SortGood g f) :
    ∀ (l p visited stack v s : List α),
      (∀ i ∈ l, (∀ x ∈ p, g.Reaches x i) ∧ i ∉ p) →
      (∀ x ∈ visited, x ∈ stack ∨ x ∈ p) →
      GoodStack g stack →
      visitListF f l visited stack = some (v, s) →
      GoodStack g s ∧ (∀ x ∈ v, x ∈ s ∨ x ∈ p) ∧ (∀ i ∈ l, i ∈ s) ∧
        (∃ Δ, s = Δ ++ stack) := by
  intro l
  induction l with
  | nil =>
      intro p visited stack v s _ hinv hgs h
      have h1 : visited = v ∧ stack = s := by
        simpa [visitListF] using h
      obtain ⟨rfl, rfl⟩ := h1
      exact ⟨hgs, hinv, by simp, ⟨[], rfl⟩⟩
  | cons i rest ih =>
      intro p visited stack v s hl hinv hgs h
      by_cases hiv : i ∈ visited
      · rw [visitListF, if_pos hiv] at h
        have hstk : i ∈ stack := by
          rcases hinv i hiv with h1 | h1
          · exact h1
          · exact absurd h1 (hl i (List.mem_cons_self _ _)).2
        obtain ⟨hgs1, hinv1, hmem1, ⟨Δ, hΔ⟩⟩ :=
          ih p visited stack v s (fun j hj => hl j (List.mem_cons_of_mem _ hj))
            hinv hgs h
        refine ⟨hgs1, hinv1, ?_, ⟨Δ, hΔ⟩⟩
        intro j hj
        rcases List.mem_cons.mp hj with rfl | hj1
        · rw [hΔ]; exact List.mem_append_right _ hstk
        · exact hmem1 j hj1
      · rw [visitListF, if_neg hiv] at h
        cases hfi : f i visited stack with
        | none => rw [hfi] at h; cases h
        | some q =>
            obtain ⟨v1, s1⟩ := q
            rw [hfi] at h
            obtain ⟨hgs1, hinv1, ⟨t, ht⟩, ⟨Δ1, hΔ1⟩⟩ :=
              hf i visited stack p v1 s1 hiv (hl i (List.mem_cons_self _ _)).1
                hinv hgs hfi
            obtain ⟨hgs2, hinv2, hmem2, ⟨Δ2, hΔ2⟩⟩ :=
              ih p v1 s1 v s (fun j hj => hl j (List.mem_cons_of_mem _ hj))
                hinv1 hgs1 h
            refine ⟨hgs2, hinv2, ?_, ⟨Δ2 ++ Δ1, by rw [hΔ2, hΔ1, List.append_assoc]⟩⟩
            intro j hj
            rcases List.mem_cons.mp hj with rfl | hj1
            · rw [hΔ2, ht]
              exact List.mem_append_right _ (List.mem_cons_self _ _)
            · exact hmem2 j hj1

theorem sortUtil_good {α : Type} [DecidableEq α] (g : Graph α)
    (hacyc : g.Acyclic) :
    ∀ fuel, SortGood g (fun i v s => sortUtil g fuel i v s) := by
  intro fuel
  induction fuel with
  | zero =>
      intro node visited stack p v s _ _ _ _ h
      simp [sortUtil] at h
  | succ f ih =>
      intro node visited stack p v s hnv hpath hinv hgs h
      simp only [sortUtil] at h
      cases hvl : visitListF (fun i v1 s1 => sortUtil g f i v1 s1)
          (g.adjOf node) (node :: visited) stack with
      | none => rw [hvl] at h; simp at h
      | some q =>
          obtain ⟨v1, s1⟩ := q
          rw [hvl] at h
          simp only [Option.some.injEq, Prod.mk.injEq] at h
          obtain ⟨hv, hs⟩ := h
          subst hv
          subst hs
          have hl : ∀ i ∈ g.adjOf node,
              (∀ x ∈ node :: p, g.Reaches x i) ∧ i ∉ node :: p := by
            intro i hi
            constructor
            · intro x hx
              rcases List.mem_cons.mp hx with rfl | hx1
              · exact Relation.ReflTransGen.single hi
              · exact (hpath x hx1).trans (Relation.ReflTransGen.single hi)
            · intro hip
              rcases List.mem_cons.mp hip with rfl | hip1
              · exact hacyc i i hi Relation.ReflTransGen.refl
              · exact hacyc node i hi (hpath i hip1)
          have hinv1 : ∀ x ∈ node :: visited, x ∈ stack ∨ x ∈ node :: p := by
            intro x hx
            rcases List.mem_cons.mp hx with rfl | hx1
            · exact Or.inr (List.mem_cons_self _ _)
            · rcases hinv x hx1 with h1 | h1
              · exact Or.inl h1
              · exact Or.inr (List.mem_cons_of_mem _ h1)
          obtain ⟨hgs1, hinvp1, hmeml, ⟨Δ, hΔ⟩⟩ :=
            visitListF_good g _ ih (g.adjOf node) (node :: p) (node :: visited)
              stack v1 s1 hl hinv1 hgs hvl
          refine ⟨?_, ?_, ⟨s1, rfl⟩, ⟨node :: Δ, by rw [hΔ]; rfl⟩⟩
          · show (∀ y ∈ g.adjOf node, y ∈ s1) ∧ GoodStack g s1
            exact ⟨hmeml, hgs1⟩
          · intro x hx
            rcases hinvp1 x hx with h1 | h1
            · exact Or.inl (List.mem_cons_of_mem _ h1)
            · rcases List.mem_cons.mp h1 with rfl | h2
              · exact Or.inl (List.mem_cons_self _ _)
              · exact Or.inr h2

theorem goodStack_mem {α : Type} [DecidableEq α] (g : Graph α) :
    ∀ l, GoodStack g l → ∀ u v, u ∈ l → g.edge u v → v ∈ l := by
  intro l
  induction l with
  | nil => intro _ u v hu; cases hu
  | cons x rest ih =>
      intro hgs u v hu hedge
      obtain ⟨hx, hrest⟩ := hgs
      rcases List.mem_cons.mp hu with rfl | hu1
      · exact List.mem_cons_of_mem _ (hx v hedge)
      · exact List.mem_cons_of_mem _ (ih hrest u v hu1 hedge)

theorem goodStack_indexOf_lt {α : Type} [DecidableEq α] (g : Graph α) :
    ∀ l, GoodStack g l → l.Nodup → ∀ u v, u ∈ l → g.edge u v →
      l.indexOf u < l.indexOf v := by
  intro l
  induction l with
  | nil => intro _ _ u v hu; cases hu
  | cons x rest ih =>
      intro hgs hnd u v hu hedge
      obtain ⟨hx, hrest⟩ := hgs
      obtain ⟨hxr, hndr⟩ := List.nodup_cons.mp hnd
      rcases List.mem_cons.mp hu with rfl | hu1
      · have hv : v ∈ rest := hx v hedge
        have hvx : u ≠ v := fun h => hxr (h ▸ hv)
        rw [List.indexOf_cons_self, List.indexOf_cons_ne _ hvx]
        exact Nat.succ_pos _
      · have hv : v ∈ rest := goodStack_mem g rest hrest u v hu1 hedge
        have hux : x ≠ u := fun h => hxr (h ▸ hu1)
        have hvx : x ≠ v := fun h => hxr (h ▸ hv)
        rw [List.indexOf_cons_ne _ hux, List.indexOf_cons_ne _ hvx]
        exact Nat.succ_lt_succ (ih hrest hndr u v hu1 hedge)

/-! ### Assembled properties of the linearizer -/

theorem topological_sortWith_unpack {α : Type} [DecidableEq α] (g : Graph α)
    (order l : List α) (h : g.topological_sortWith order = some l) :
    ∃ v, visitListF (fun i v1 s1 => sortUtil g g.nodes.length i v1 s1)
      order [] [] = some (v, l) := by
  unfold Graph.topological_sortWith visitList at h
  cases hvl : visitListF (fun i v1 s1 => sortUtil g g.nodes.length i v1 s1)
      order [] [] with
  | none => rw [hvl] at h; cases h
  | some q =>
      obtain ⟨v, s⟩ := q
      rw [hvl] at h
      simp only [Option.some.injEq] at h
      subst h
      exact ⟨v, rfl⟩

theorem topological_sortWith_perm_nodes {α : Type} [DecidableEq α]
    (g : Graph α) (order l : List α)
    (hwf : ∀ u x, g.edge u x → x ∈ g.nodes) (hnd : g.nodes.Nodup)
    (horder : ∀ x, x ∈ order ↔ x ∈ g.nodes)
    (h : g.topological_sortWith order = some l) :
    l.Perm g.nodes := by
  obtain ⟨v, hvl⟩ := topological_sortWith_unpack g order l h
  obtain ⟨Δv, Δs, hv, hs, hperm, hndv, _, hmem, horig⟩ :=
    visitListF_shape g _ (sortUtil_shape g g.nodes.length) order [] [] v l hvl
  rw [List.append_nil] at hv hs
  subst hv
  subst hs
  have hvnodes : ∀ x, x ∈ v ↔ x ∈ g.nodes := by
    intro x
    constructor
    · intro hx
      rcases horig x hx with h1 | ⟨u, h1⟩
      · exact (horder x).mp h1
      · exact hwf u x h1
    · intro hx
      exact hmem x ((horder x).mpr hx)
  exact hperm.trans ((List.perm_ext_iff_of_nodup hndv hnd).mpr hvnodes)

/-- Sanity check: with the outer iteration order `{0, 1, 2, 3, 4, 5}` (the
CPython set iteration order for these small integers), the model reproduces
the doctest of `Graph.topological_sort`: `[5, 4, 2, 3, 1, 0]`. -/
theorem topological_sort_doctest :
    (Graph.ofEdges [((5:Nat),2),(5,0),(4,0),(4,1),(2,3),(3,1)]).topological_sortWith
      [0,1,2,3,4,5] = some [5,4,2,3,1,0] := rfl

/-- C1: for every acyclic graph built by `add_edge` calls and every outer
iteration order enumerating its node set, the list returned by
`topological_sort` respects every edge: if U→V is an edge then U's position
in the output strictly precedes V's. -/
theorem topological_sort_respects_edges {α : Type} [DecidableEq α]
    (E : List (α × α)) (order l : List α) (u v : α)
    (horder : ∀ x, x ∈ order ↔ x ∈ (Graph.ofEdges E).nodes)
    (hacyc : (Graph.ofEdges E).Acyclic)
    (hedge : (Graph.ofEdges E).edge u v)
    (hsort : (Graph.ofEdges E).topological_sortWith order = some l) :
    l.indexOf u < l.indexOf v := by
  obtain ⟨vv, hvl⟩ := topological_sortWith_unpack _ order l hsort
  obtain ⟨hgs, _, hmeml, _⟩ :=
    visitListF_good (Graph.ofEdges E) _
      (sortUtil_good (Graph.ofEdges E) hacyc (Graph.ofEdges E).nodes.length)
      order [] [] [] vv l
      (fun i _ => ⟨fun x hx => absurd hx (List.not_mem_nil x),
        fun hx => absurd hx (List.not_mem_nil i)⟩)
      (fun x hx => absurd hx (List.not_mem_nil x))
      trivial hvl
  obtain ⟨Δv, Δs, _, hs, hperm, hndv, _, _, _⟩ :=
    visitListF_shape (Graph.ofEdges E) _
      (sortUtil_shape (Graph.ofEdges E) (Graph.ofEdges E).nodes.length)
      order [] [] vv l hvl
  rw [List.append_nil] at hs
  subst hs
  have hndl : l.Nodup := hperm.nodup_iff.mpr hndv
  have hu : u ∈ l :=
    hmeml u ((horder u).mpr (Graph.edge_mem_nodes_ofEdges E u v hedge).1)
  exact goodStack_indexOf_lt (Graph.ofEdges E) l hgs hndl u v hu hedge

/-- Witness for C1 at the concrete acyclic graph with the single edge 0→1:
in the returned order [0, 1], node 0 precedes node 1. -/
theorem topological_sort_respects_edges_witness :
    ([0, 1] : List Nat).indexOf 0 < [0, 1].indexOf 1 := by
  have hacyc : (Graph.ofEdges [((0:Nat), 1)]).Acyclic := by
    intro u v huv hr
    rw [Graph.edge_ofEdges] at huv
    simp only [List.mem_singleton, Prod.mk.injEq] at huv
    obtain ⟨rfl, rfl⟩ := huv
    rcases Relation.ReflTransGen.cases_head hr with h | ⟨c, hc, _⟩
    · exact absurd h (by decide)
    · rw [Graph.edge_ofEdges] at hc
      simp at hc
  exact topological_sort_respects_edges [((0:Nat), 1)]
    (Graph.ofEdges [((0:Nat), 1)]).nodes [0, 1] 0 1
    (fun x => Iff.rfl) hacyc (by decide) rfl

/-- C7: for every graph built by `add_edge` calls, the returned sequence
contains exactly the nodes inserted via `add_edge` (the endpoints of the
added edges): each exactly once, nothing else. -/
theorem topological_sort_complete {α : Type} [DecidableEq α]
    (E : List (α × α)) (order l : List α)
    (horder : ∀ x, x ∈ order ↔ x ∈ (Graph.ofEdges E).nodes)
    (hsort : (Graph.ofEdges E).topological_sortWith order = some l) :
    l.Nodup ∧ l.Perm (Graph.ofEdges E).nodes ∧
      (∀ x, x ∈ l ↔ ∃ p ∈ E, x = p.1 ∨ x = p.2) := by
  have hperm : l.Perm (Graph.ofEdges E).nodes :=
    topological_sortWith_perm_nodes (Graph.ofEdges E) order l
      (fun u x h => (Graph.edge_mem_nodes_ofEdges E u x h).2)
      (Graph.nodes_nodup_ofEdges E) horder hsort
  refine ⟨hperm.nodup_iff.mpr (Graph.nodes_nodup_ofEdges E), hperm, ?_⟩
  intro x
  rw [hperm.mem_iff]
  exact Graph.mem_nodes_ofEdges E x

/-- Witness for C7 at the doctest graph: the output (for insertion-order
iteration) is a permutation of the inserted node set. -/
theorem topological_sort_complete_witness :
    ([4, 5, 0, 2, 3, 1] : List Nat).Perm
      (Graph.ofEdges [((5:Nat),2),(5,0),(4,0),(4,1),(2,3),(3,1)]).nodes :=
  (topological_sort_complete [((5:Nat),2),(5,0),(4,0),(4,1),(2,3),(3,1)]
    (Graph.ofEdges [((5:Nat),2),(5,0),(4,0),(4,1),(2,3),(3,1)]).nodes
    [4, 5, 0, 2, 3, 1] (fun x => Iff.rfl) rfl).2.1

/-- C10: for every finite graph built by `add_edge` calls — cyclic ones
included — `topological_sort` terminates and returns a list with one entry
per node: marking each node visited on entry bounds the recursion depth by
the number of nodes (the modelled fuel `nodes.length` is never exhausted). -/
theorem topological_sort_terminates {α : Type} [DecidableEq α]
    (E : List (α × α)) :
    ∃ l, (Graph.ofEdges E).topological_sort = some l ∧
      l.length = (Graph.ofEdges E).nodes.length := by
  obtain ⟨l, hl⟩ := topological_sortWith_total (Graph.ofEdges E)
    (fun u x h => (Graph.edge_mem_nodes_ofEdges E u x h).2)
    (Graph.ofEdges E).nodes (fun x h => h)
  refine ⟨l, hl, ?_⟩
  exact (topological_sortWith_perm_nodes (Graph.ofEdges E) _ l
    (fun u x h => (Graph.edge_mem_nodes_ofEdges E u x h).2)
    (Graph.nodes_nodup_ofEdges E) (fun x => Iff.rfl) hl).length_eq

/-- C2: on the two-node cycle 0→1, 1→0 the linearizer terminates but
silently returns the order [0, 1]: no `CyclicDependency` condition exists in
the code, and the returned order violates the edge 1→0 (the position of 1
does not precede the position of 0). -/
theorem topological_sort_cycle_silent :
    (Graph.ofEdges [((0:Nat), 1), (1, 0)]).topological_sort = some [0, 1] ∧
      (Graph.ofEdges [((0:Nat), 1), (1, 0)]).edge 1 0 ∧
      ¬ ([0, 1] : List Nat).indexOf 1 < [0, 1].indexOf 0 := by
  refine ⟨rfl, ?_, by decide⟩
  rw [Graph.edge_ofEdges]
  simp

/-! ### Admission, classification, assertion and rendering -/

theorem resolve_noop (a : Amalgamation) (t : _Type) :
    _resolve_type_dependencies a t = a := by
  unfold _resolve_type_dependencies _resolve_typedef_declaration
    _resolve_elaborated_declaration _resolve_pointer_declaration
  simp

/-- C4: the transitive type-dependency resolution is a stub: for every state
and every type, `_resolve_type_dependencies` returns the state unchanged, so
no type→type edge is ever registered for typedef/elaborated/pointer types.
Concretely, admitting a variable of typedef type `T` (TypeKind 107, wrapping
some struct `S`) yields the single edge `T → variable` and nothing for `S`. -/
theorem resolve_type_dependencies_stub :
    (∀ (a : Amalgamation) (t : _Type), _resolve_type_dependencies a t = a) ∧
      (_add_variable Amalgamation.empty ⟨"v", ⟨TypeKindTYPEDEF, "T"⟩⟩).graph.adj =
        [(GNode.typeNode "T", [GNode.varNode "v"])] := by
  refine ⟨resolve_noop, ?_⟩
  rfl

/-- C5: when the incoming cursor's USR is already a key of the registry,
`_symbol_visitor` discards the record: the registry keeps its size (indeed
its exact contents) and the graph's node set and edge lists are unchanged. -/
theorem symbol_visitor_idempotent (a : Amalgamation) (c : CursorRecord)
    (h : dictContains a.usr c.usr = true) :
    (_symbol_visitor a c).usr.length = a.usr.length ∧
      (_symbol_visitor a c).graph.nodes = a.graph.nodes ∧
      (_symbol_visitor a c).graph.adj = a.graph.adj := by
  unfold _symbol_visitor
  rw [if_pos h]
  exact ⟨rfl, rfl, rfl⟩

/-- Witness for C5: admitting the same variable record twice leaves the
registry size and the graph unchanged after the second admission. -/
theorem symbol_visitor_idempotent_witness :
    (_symbol_visitor (_symbol_visitor Amalgamation.empty
        (CursorRecord.varDecl ⟨"v", ⟨17, ""⟩⟩))
      (CursorRecord.varDecl ⟨"v", ⟨17, ""⟩⟩)).usr.length =
      (_symbol_visitor Amalgamation.empty
        (CursorRecord.varDecl ⟨"v", ⟨17, ""⟩⟩)).usr.length :=
  (symbol_visitor_idempotent
    (_symbol_visitor Amalgamation.empty (CursorRecord.varDecl ⟨"v", ⟨17, ""⟩⟩))
    (CursorRecord.varDecl ⟨"v", ⟨17, ""⟩⟩) rfl).1

/-- C3 counterexample: admitting the primitive-typed variable `int v;`
(TypeKind of `int` is 17, inside the basic range) creates the `None`
placeholder as a graph node and an edge from it to the variable node, so the
variable is not an isolated node and a placeholder is created — contrary to
the claim. -/
theorem primitive_variable_not_isolated :
    GNode.nullNode ∈
        (_add_variable Amalgamation.empty ⟨"v", ⟨17, ""⟩⟩).graph.nodes ∧
      (_add_variable Amalgamation.empty ⟨"v", ⟨17, ""⟩⟩).graph.edge
        GNode.nullNode (GNode.varNode "v") := by
  exact ⟨by decide, by decide⟩

/-- C3 amended: for a declaration whose type is classified Primitive, no
edge from a type node is added; instead `add_edge(None, declaration)` is
issued, so the graph holds exactly the `None` placeholder node, the
declaration node, and the single edge between them (shown for a variable and
for an argumentless function admitted into a fresh amalgamation; the
placeholder is skipped later at render time). -/
theorem primitive_declaration_null_edge (v : VarRecord) (f : FuncRecord)
    (hv : v.type.is_basic = true) (hf : f.resultType.is_basic = true)
    (hargs : f.args = []) :
    (_add_variable Amalgamation.empty v).graph.nodes =
        [GNode.nullNode, GNode.varNode v.usr] ∧
      (_add_variable Amalgamation.empty v).graph.adj =
        [(GNode.nullNode, [GNode.varNode v.usr])] ∧
      (_add_function Amalgamation.empty f).graph.nodes =
        [GNode.nullNode, GNode.funcNode f.usr] ∧
      (_add_function Amalgamation.empty f).graph.adj =
        [(GNode.nullNode, [GNode.funcNode f.usr])] := by
  unfold _add_variable _add_function
  rw [hv, hf, hargs]
  simp [resolve_noop, _register_symbol, Graph.add_edge, Graph.empty,
    adjAppend, insertNode, Amalgamation.empty]

/-- Witness for C3 amended, at `int v;` and `void f();`. -/
theorem primitive_declaration_null_edge_witness :
    (_add_variable Amalgamation.empty ⟨"v", ⟨17, ""⟩⟩).graph.nodes =
      [GNode.nullNode, GNode.varNode "v"] :=
  (primitive_declaration_null_edge ⟨"v", ⟨17, ""⟩⟩ ⟨"f", ⟨2, ""⟩, []⟩
    rfl rfl rfl).1

/-- C6 counterexample: two distinct `_Type` objects with the same USR are
equal under identity equality (`__eq__`), yet `add_edge` accepts them — the
`assert` compares object identity (`is`), so no fatal assertion is raised. -/
theorem add_edge_same_key_accepted :
    pyKeyEq ⟨1, "c:@S@S"⟩ ⟨2, "c:@S@S"⟩ = true ∧
      (PyGraph.add_edge ⟨[], []⟩ ⟨1, "c:@S@S"⟩ ⟨2, "c:@S@S"⟩).isOk = true :=
  ⟨rfl, rfl⟩

/-- C6 amended: `add_edge(u, v)` fails with the fatal assertion exactly when
`u` and `v` are the same object (Python reference identity `is`); distinct
objects — even when equal under identity-key equality — are accepted and the
edge is recorded. -/
theorem add_edge_assert_is_object_identity (g : PyGraph) (u v : PyObj) :
    (PyGraph.add_edge g u v).isOk = false ↔ pyIs u v = true := by
  unfold PyGraph.add_edge
  by_cases h : pyIs u v = true <;>
    simp [h, Except.isOk, Except.toBool]

/-- C8: a type is classified basic (Primitive) exactly when its TypeKind
value lies in the contiguous range from `VOID` (2) through `NULLPTR` (24)
inclusive, and it is classified Named (not basic) exactly when the value
falls outside that range on either side. -/
theorem is_basic_range (t : _Type) :
    (t.is_basic = true ↔
        TypeKindVOID ≤ t.kindValue ∧ t.kindValue ≤ TypeKindNULLPTR) ∧
      (t.is_basic = false ↔
        (t.kindValue < TypeKindVOID ∨ TypeKindNULLPTR < t.kindValue)) := by
  unfold _Type.is_basic TypeKindVOID TypeKindNULLPTR
  constructor
  · simp
  · simp
    omega

theorem string_foldl_append (s : List String) :
    ∀ acc : String, s.foldl (· ++ ·) acc = acc ++ s.foldl (· ++ ·) "" := by
  induction s with
  | nil => intro acc; simp [String.append_empty]
  | cons a t ih =>
      intro acc
      rw [List.foldl_cons, List.foldl_cons, ih (acc ++ a), ih ("" ++ a),
        String.empty_append, String.append_assoc]

theorem string_join_cons (a : String) (s : List String) :
    String.join (a :: s) = a ++ String.join s := by
  simp only [String.join, List.foldl_cons]
  rw [string_foldl_append, String.empty_append]

theorem get_content_foldl (decls : List (Option RenderDecl)) :
    ∀ acc : String,
      decls.foldl (fun content d =>
        match d with
        | none => content
        | some decl => content ++ renderLine decl) acc =
      acc ++ String.join ((decls.filterMap id).map renderLine) := by
  induction decls with
  | nil => intro acc; simp [String.join, String.append_empty]
  | cons d rest ih =>
      intro acc
      cases d with
      | none =>
          rw [List.foldl_cons]
          simp only [List.filterMap_cons, id_eq]
          exact ih acc
      | some decl =>
          rw [List.foldl_cons]
          simp only [List.filterMap_cons, id_eq]
          rw [ih (acc ++ renderLine decl), List.map_cons, string_join_cons,
            String.append_assoc]

/-- C9: the composed output consists of exactly one line per rendered
declaration — nodes with no textual form (the Python `None` placeholder)
contribute nothing — and each line is the declaration text, the `  // `
separator, the location text and a newline, where the location text of a
declaration whose cursor has no file is the empty string (not a crash). -/
theorem get_content_skips_and_renders (decls : List (Option RenderDecl)) :
    get_content decls = String.join ((decls.filterMap id).map renderLine) ∧
      (∀ d : RenderDecl,
        renderLine d = d.declarationText ++ "  // " ++
          _cursor_location_text d.location ++ "\n") ∧
      (∀ ln col : Nat, _cursor_location_text ⟨none, ln, col⟩ = "") := by
  refine ⟨?_, ?_, ?_⟩
  · rw [get_content, get_content_foldl decls "", String.empty_append]
  · intro d
    rfl
  · intro ln col
    rfl

end Amalg
